import Mathlib

/-!
Verification of the feedback-classifier core (src/feedback_classifier.py).

The Python module is embedded shallowly:
* `re` patterns built by `create_obfuscation_regex` are embedded as a small
  regular-expression AST `RE` with Brzozowski-derivative matching (`reMatch`,
  proved equivalent to the inductive language semantics `Lang`);
* the trie, the char-repetition normalizer, the tokenizer and the
  classification orchestrator are translated function by function;
* the three word sets read from text files at startup (`stopwords.txt`,
  `positive.txt`, `negative.txt`) are not part of the repository, so they are
  parameters (`stop`, `pos`, `neg`) of the embedded functions, and
  `difflib.SequenceMatcher(...).ratio()` (Python standard library, external to
  the repository) is an abstract similarity parameter `ratio`; every theorem
  quantifies over them.
Rational `4/5` stands for the source's float literal `0.8`: for the short
strings involved the correctly-rounded float comparison `sim >= 0.8` agrees
with the exact rational comparison.
-/

set_option maxRecDepth 100000

namespace FeedbackAnalyser

/-! ### Character classes of the compiled patterns -/

/-- Case-insensitive character comparison: the embedding of matching a literal
character under `re.IGNORECASE`. -/
def eqIC (a b : Char) : Bool := a.toLower == b.toLower

/-- The characters of the source's `OBFUSCATION = r"[*#x@\$%&^!]+"` class. -/
def symChars : List Char := ['*', '#', 'x', '@', '$', '%', '&', '^', '!']

/-- Membership in the obfuscation symbol class; `re.IGNORECASE` makes the
letter `x` in the class also match `X`, hence the `toLower`. -/
def symCls (c : Char) : Bool := symChars.contains c.toLower

/-- The class `[\W_]` (non-word character or underscore).  Python's `\w` is
`[a-zA-Z0-9_]` (ASCII scope suffices: every tokenizer output character is in
`[a-z0-9@#*$%&^_]` or an emoji, where the two notions agree). -/
def nonWordCls (c : Char) : Bool := !(c.isAlphanum || c == '_') || c == '_'

/-! ### A small regular-expression AST with Brzozowski-derivative matching -/

/-- Regular expressions over `Char` with predicate character classes; the
shallow embedding of the patterns the source hands to `re.compile`. -/
inductive RE where
  | zero : RE
  | eps : RE
  | cls : (Char → Bool) → RE
  | cat : RE → RE → RE
  | alt : RE → RE → RE
  | star : RE → RE

/-- Does the regular expression accept the empty string? -/
def RE.nullable : RE → Bool
  | .zero => false
  | .eps => true
  | .cls _ => false
  | .cat a b => a.nullable && b.nullable
  | .alt a b => a.nullable || b.nullable
  | .star _ => true

/-- Brzozowski derivative of a regular expression by one character. -/
def RE.deriv : RE → Char → RE
  | .zero, _ => .zero
  | .eps, _ => .zero
  | .cls p, c => if p c then .eps else .zero
  | .cat a b, c =>
      if a.nullable then .alt (.cat (a.deriv c) b) (b.deriv c)
      else .cat (a.deriv c) b
  | .alt a b, c => .alt (a.deriv c) (b.deriv c)
  | .star a, c => .cat (a.deriv c) (.star a)

/-- Derivative-based full matching: the embedding of `pattern.fullmatch`
(the compiled source patterns are anchored `^...$` as well). -/
def reMatch (r : RE) (s : List Char) : Bool := (s.foldl RE.deriv r).nullable

/-- The language semantics of `RE`. -/
inductive Lang : RE → List Char → Prop where
  | eps : Lang .eps []
  | cls {p : Char → Bool} {c : Char} : p c = true → Lang (.cls p) [c]
  | cat {a b : RE} {s t : List Char} :
      Lang a s → Lang b t → Lang (.cat a b) (s ++ t)
  | altL {a b : RE} {s : List Char} : Lang a s → Lang (.alt a b) s
  | altR {a b : RE} {s : List Char} : Lang b s → Lang (.alt a b) s
  | starNil {a : RE} : Lang (.star a) []
  | starCons {a : RE} {s t : List Char} :
      Lang a s → Lang (.star a) t → Lang (.star a) (s ++ t)

/-! ### The dynamically generated obfuscation patterns
(source: `create_obfuscation_regex`, Cell 5) -/

/-- `X+` as `X · X*`. -/
def plusRE (a : RE) : RE := .cat a (.star a)

/-- The source's `OBFUSCATION` sub-pattern `[*#x@\$%&^!]+`. -/
def OBFUSCATION : RE := plusRE (.cls symCls)

/-- The filler sub-pattern `[\W_]*`. -/
def nwFill : RE := .star (.cls nonWordCls)

/-- `word[0]`.  On the empty word Python raises IndexError; the default is a
harmless placeholder (every abusive-word entry has length ≥ 2). -/
def wordFirst (w : List Char) : Char := w.headD ' '

/-- `word[-1]`, same convention as `wordFirst`. -/
def wordLast (w : List Char) : Char := w.getLastD ' '

/-- `word[1:-1]`. -/
def wordMiddle (w : List Char) : List Char := (w.drop 1).dropLast

/-- `middle_pattern`: for each middle character `ch`, the piece
`(?:ch|OBFUSCATION)+` (with `re.escape(ch)` a literal character). -/
def obfMiddle : List Char → RE
  | [] => .eps
  | c :: rest => .cat (plusRE (.alt (.cls (eqIC c)) OBFUSCATION)) (obfMiddle rest)

/-- Embedding of `create_obfuscation_regex(word)`: the compiled pattern
`^first(?:[\W_]*middle_pattern)?[\W_]*last$` with `re.IGNORECASE`
(literal characters match through `eqIC`). -/
def create_obfuscation_regex (w : List Char) : RE :=
  .cat (.cls (eqIC (wordFirst w)))
    (.cat (.alt .eps (.cat nwFill (obfMiddle (wordMiddle w))))
      (.cat nwFill (.cls (eqIC (wordLast w)))))

/-! ### Word-level descriptions of the pattern language -/

/-- Zero or more `[\W_]` filler characters. -/
def Fill (s : List Char) : Prop := ∀ c ∈ s, nonWordCls c = true

/-- A nonempty block of characters each being the middle character itself
(case-insensitively) or an obfuscation symbol. -/
def MidBlock (c : Char) (s : List Char) : Prop :=
  s ≠ [] ∧ ∀ x ∈ s, eqIC c x = true ∨ symCls x = true

/-- `Blocks cs s`: `s` splits into one `MidBlock` per middle character of
`cs`, in order. -/
inductive Blocks : List Char → List Char → Prop where
  | nil : Blocks [] []
  | cons {c : Char} {cs s t : List Char} :
      MidBlock c s → Blocks cs t → Blocks (c :: cs) (s ++ t)

/-- The actual language of the compiled obfuscation pattern for `w`: the
token starts with `w`'s first character and ends with `w`'s last character
(case-insensitively); between them there is either filler only (the whole
middle section of the pattern is optional), or filler, then one nonempty
block per middle character (each block mixing one-or-more copies of that
character and obfuscation symbols), then filler. -/
def AmendedObfLang (w t : List Char) : Prop :=
  ∃ f body l, t = f :: (body ++ [l]) ∧ eqIC (wordFirst w) f = true ∧
    eqIC (wordLast w) l = true ∧
    (Fill body ∨ ∃ fl1 mid fl2, body = fl1 ++ mid ++ fl2 ∧ Fill fl1 ∧
      Blocks (wordMiddle w) mid ∧ Fill fl2)

/-- One middle character as claim C1 words it: the character itself
(case-insensitively) or one-or-more obfuscation symbols. -/
def Seg1 (c : Char) (s : List Char) : Prop :=
  (∃ d, s = [d] ∧ eqIC c d = true) ∨ (s ≠ [] ∧ ∀ x ∈ s, symCls x = true)

/-- `Segs cs s`: `s` splits into one `Seg1` per middle character of `cs`. -/
inductive Segs : List Char → List Char → Prop where
  | nil : Segs [] []
  | cons {c : Char} {cs s t : List Char} :
      Seg1 c s → Segs cs t → Segs (c :: cs) (s ++ t)

/-- The language claim C1 ascribes to the pattern for `w`: first and last
characters literal, each middle character appearing as itself or replaced by
one-or-more symbol-class characters, with optional `[\W_]` filler before the
middle section and before the last character; the middle section is not
optional as a whole. -/
def ClaimedObfLang (w t : List Char) : Prop :=
  ∃ f fl1 mid fl2 l, t = f :: (fl1 ++ mid ++ fl2 ++ [l]) ∧
    eqIC (wordFirst w) f = true ∧ eqIC (wordLast w) l = true ∧
    Fill fl1 ∧ Fill fl2 ∧ Segs (wordMiddle w) mid

/-! ### Char-repetition normalizer (source: `normalize_repeated_chars`) -/

/-- The loop of `normalize_repeated_chars`: `prev` is `prev_char`
(`none` = Python's initial `None`), `cnt` is `repeat_count`; a character is
kept while its consecutive-repeat count is at most 2. -/
def normalizeAux : List Char → Option Char → Nat → List Char
  | [], _, _ => []
  | c :: rest, prev, cnt =>
      let cnt' := if some c = prev then cnt + 1 else 1
      if cnt' ≤ 2 then c :: normalizeAux rest (some c) cnt'
      else normalizeAux rest (some c) cnt'

/-- Embedding of `normalize_repeated_chars` (the source's early return on the
empty string returns the same empty result). -/
def normalize_repeated_chars (w : String) : String :=
  ⟨normalizeAux w.data none 0⟩

/-- Does the list contain the same character three times consecutively? -/
def hasTriple : List Char → Bool
  | a :: b :: c :: rest => (a == b && b == c) || hasTriple (b :: c :: rest)
  | _ => false

/-- Number of leading occurrences of `p`. -/
def leadCount (p : Char) : List Char → Nat
  | [] => 0
  | d :: rest => if d = p then leadCount p rest + 1 else 0

/-! ### Trie (source: Cell 3) -/

/-- A trie node: insertion-ordered children map (Python dict) plus the
`is_end_of_word` flag. -/
inductive TrieNode where
  | mk (children : List (Char × TrieNode)) (is_end_of_word : Bool)

def TrieNode.children : TrieNode → List (Char × TrieNode)
  | .mk cs _ => cs

def TrieNode.is_end_of_word : TrieNode → Bool
  | .mk _ e => e

/-- `TrieNode()`: fresh node, no children, not a word end. -/
def TrieNode.new : TrieNode := .mk [] false

/-- Dict read `node.children[char]` (first matching key). -/
def lookupChild : List (Char × TrieNode) → Char → Option TrieNode
  | [], _ => none
  | (d, n) :: rest, c => if d = c then some n else lookupChild rest c

/-- Dict write `node.children[char] = v`: update the existing key in place,
or append a new key (Python dicts preserve insertion order). -/
def setChild : List (Char × TrieNode) → Char → TrieNode → List (Char × TrieNode)
  | [], c, v => [(c, v)]
  | (d, n) :: rest, c, v =>
      if d = c then (d, v) :: rest else (d, n) :: setChild rest c v

/-- The body of `Trie.insert`, walking the word's characters and creating
missing children, then marking the final node. -/
def insertAux (node : TrieNode) : List Char → TrieNode
  | [] => .mk node.children true
  | c :: rest =>
      let child := (lookupChild node.children c).getD TrieNode.new
      .mk (setChild node.children c (insertAux child rest)) node.is_end_of_word

/-- The body of `Trie.search_prefix`: walk the token's characters; after each
step, succeed as soon as the reached node is a word end. -/
def searchFrom : TrieNode → List Char → Bool
  | _, [] => false
  | node, c :: rest =>
      match lookupChild node.children c with
      | none => false
      | some child => child.is_end_of_word || searchFrom child rest

structure Trie where
  root : TrieNode

/-- `Trie()`. -/
def Trie.new : Trie := ⟨TrieNode.new⟩

def Trie.insert (t : Trie) (word : String) : Trie := ⟨insertAux t.root word.data⟩

def Trie.search_prefix (t : Trie) (word : String) : Bool :=
  searchFrom t.root word.data

/-! ### Word lists (source: Cell 4)

`stopwords`, `positive_words` and `negative_words` are read from text files
that are not part of the repository; they appear as parameters `stop`, `pos`,
`neg` below.  The two literal lists are transcribed verbatim. -/

/-- The literal abusive-word list.  Between `"bhenchod"` and `"bhosdike"` the
source has no comma, so Python string-literal concatenation merges the two
into the single entry `"bhenchodbhosdike"`; the transcription keeps that
merged entry, exactly as Python evaluates the literal. -/
def abusive_words : List String := [
  "chut", "chu", "chodu", "madar", "behenchod", "bhenchodbhosdike",
  "randi", "harami", "gand", "lodu", "laude", "lavde", "lauda", "loda", "lund",
  "tatti", "gaand", "bhadwe", "bhadwa", "chinal", "kutta", "kuttiya",
  "kamina", "haram", "chud", "lendi", "saala", "saale",
  "fuck", "motherfucker", "bullshit", "bastard",
  "slut", "whore", "asshole", "dick", "pussy", "bitch", "cock", "cunt",
  "dildo", "jerk", "wanker", "retard",
  "fck", "fuk", "fk", "phuck", "fuq",
  "mc", "bc", "bsdk", "chod", "ch0d",
  "kutti", "kutte", "rndi"]

/-- `safe_words` (prevents false positives). -/
def safe_words : List String := ["gandhiji", "gandagi", "gandhak"]

/-- The module-level trie built by inserting every abusive word. -/
def trie : Trie := abusive_words.foldl Trie.insert Trie.new

/-- The module-level compiled pattern list
(`patterns = [create_obfuscation_regex(w) for w in abusive_words]`). -/
def patterns : List RE :=
  abusive_words.map fun w => create_obfuscation_regex w.data

/-! ### Tokenizer (source: `preprocess`) -/

/-- The character class `[a-z0-9@#\*\$\%\&\^\_]` of the tokenizer. -/
def isTokenChar (c : Char) : Bool :=
  ('a' ≤ c && c ≤ 'z') || ('0' ≤ c && c ≤ '9') ||
    c == '@' || c == '#' || c == '*' || c == '$' || c == '%' || c == '&' ||
    c == '^' || c == '_'

/-- The two emoji alternatives `[\U0001F600-\U0001F64F]` and
`[\U0001F300-\U0001F5FF]`, each matching a single character. -/
def isEmojiChar (c : Char) : Bool :=
  (0x1F600 ≤ c.toNat && c.toNat ≤ 0x1F64F) ||
    (0x1F300 ≤ c.toNat && c.toNat ≤ 0x1F5FF)

/-- `re.findall` of the tokenizer's pattern: maximal runs of token characters
or single emoji characters, scanned left to right; all other characters
separate tokens. -/
def findTokens : List Char → List (List Char)
  | [] => []
  | c :: rest =>
      if isTokenChar c then
        (c :: rest.takeWhile isTokenChar) :: findTokens (rest.dropWhile isTokenChar)
      else if isEmojiChar c then [c] :: findTokens rest
      else findTokens rest
  termination_by l => l.length
  decreasing_by
    · exact Nat.lt_succ_of_le (List.dropWhile_sublist isTokenChar).length_le
    · simp
    · simp

/-- Python `str.lower()` (ASCII case folding; the word lists and the
tokenizer's alphabet contain no non-ASCII cased letters). -/
def pyLower (s : String) : String := String.mk (s.data.map Char.toLower)

/-- Python `str.strip()`: remove leading and trailing whitespace. -/
def pyStrip (s : String) : String :=
  String.mk
    (((s.data.dropWhile Char.isWhitespace).reverse.dropWhile
        Char.isWhitespace).reverse)

/-- Embedding of `preprocess`: lowercase and strip, tokenize, then drop
stopwords unless the token is a positive or negative sentiment word. -/
def preprocess (stop pos neg : List String) (text : String) : List String :=
  let lowered := pyStrip (pyLower text)
  let tokens := (findTokens lowered.data).map fun l => String.mk l
  tokens.filter fun t => !stop.contains t || pos.contains t || neg.contains t

/-! ### Sentiment scorer (source: `analyze_sentiment`)

`difflib.SequenceMatcher(None, a, b).ratio()` is Python standard library,
external to this repository; it appears as the abstract similarity parameter
`ratio`, and the float threshold `0.8` as the exact rational `4/5`. -/

/-- The per-token debug record `token_info`. -/
structure TokenInfo where
  token : String
  normalized : String
  exact_positive : Bool
  exact_negative : Bool
  fuzzy_positive_matches : List (String × ℚ)
  fuzzy_negative_matches : List (String × ℚ)
  deriving DecidableEq

/-- The debug-mode return value of `analyze_sentiment`. -/
structure SentimentReport where
  label : String
  positive_count : Nat
  negative_count : Nat
  token_details : List TokenInfo
  deriving DecidableEq

/-- The value stored in the result's `sentiment` field: a plain label string
(non-debug) or the whole analysis dict (debug). -/
inductive SentimentValue where
  | str (s : String)
  | report (r : SentimentReport)
  deriving DecidableEq

def SentimentValue.labelOf : SentimentValue → String
  | .str s => s
  | .report r => r.label

/-- One iteration of the token loop of `analyze_sentiment`, threading
`(positive_count, negative_count, details)`. -/
def analyzeStep (ratio : String → String → ℚ) (pos neg : List String)
    (acc : Nat × Nat × List TokenInfo) (token : String) :
    Nat × Nat × List TokenInfo :=
  let norm := normalize_repeated_chars (pyLower token)
  if pos.contains norm then
    (acc.1 + 1, acc.2.1, acc.2.2 ++ [⟨token, norm, true, false, [], []⟩])
  else if neg.contains norm then
    (acc.1, acc.2.1 + 1, acc.2.2 ++ [⟨token, norm, false, true, [], []⟩])
  else
    let fp := (pos.filter fun pw => (4 : ℚ)/5 ≤ ratio norm pw).map
      fun pw => (pw, ratio norm pw)
    let fn := (neg.filter fun nw => (4 : ℚ)/5 ≤ ratio norm nw).map
      fun nw => (nw, ratio norm nw)
    (acc.1 + (if fp.isEmpty then 0 else 1),
      acc.2.1 + (if fn.isEmpty then 0 else 1),
      acc.2.2 ++ [⟨token, norm, false, false, fp, fn⟩])

/-- The final label selection of `analyze_sentiment`. -/
def sentimentLabel (p n : Nat) : String :=
  if n < p then "Positive" else if p < n then "Negative" else "Neutral"

/-- Embedding of `analyze_sentiment(tokens, debug)`. -/
def analyze_sentiment (ratio : String → String → ℚ) (pos neg : List String)
    (tokens : List String) (debug : Bool) : SentimentValue :=
  let acc := tokens.foldl (analyzeStep ratio pos neg) (0, 0, [])
  let label := sentimentLabel acc.1 acc.2.1
  if debug then .report ⟨label, acc.1, acc.2.1, acc.2.2⟩ else .str label

/-! ### Classifier (source: `is_abusive`) -/

/-- The result dict of `is_abusive`: `classification` and `sentiment` always
present (initialized to `""`), `tokens`/`details` only in debug mode. -/
structure ClassifyResult where
  classification : String
  sentiment : SentimentValue
  tokens : Option (List String)
  details : Option SentimentReport
  deriving DecidableEq

/-- The token loop of `is_abusive`: skip safe words; report abusive on a trie
prefix hit, an obfuscation-pattern full match, or (checked on every
iteration) the literal `"🖕"` anywhere in the full token list. -/
def abusiveLoop (allTokens : List String) : List String → Bool
  | [] => false
  | t :: rest =>
      if safe_words.contains t then abusiveLoop allTokens rest
      else if trie.search_prefix t then true
      else if patterns.any (fun p => reMatch p t.data) then true
      else if allTokens.contains "🖕" then true
      else abusiveLoop allTokens rest

/-- `is_abusive` after tokenization, as a function of the token list. -/
def classifyTokens (ratio : String → String → ℚ) (pos neg : List String)
    (tokens : List String) (debug : Bool) : ClassifyResult :=
  if tokens.isEmpty then ⟨"Please give meaningful feedback", .str "", none, none⟩
  else if abusiveLoop tokens tokens then ⟨"Abusive", .str "", none, none⟩
  else
    let sa := analyze_sentiment ratio pos neg tokens debug
    { classification := "Clean"
      sentiment := sa
      tokens := if debug then some tokens else none
      details :=
        if debug then
          match sa with
          | .report r => some r
          | .str _ => none
        else none }

/-- Embedding of `is_abusive(text, debug)`. -/
def is_abusive (ratio : String → String → ℚ) (stop pos neg : List String)
    (text : String) (debug : Bool) : ClassifyResult :=
  classifyTokens ratio pos neg (preprocess stop pos neg text) debug

/-! ### Spec-side definitions -/

/-- Modelled from the spec: §4.2 states the char-repetition normalization
"is applied before trie lookups".  This variant of the token loop differs
from the source's `abusiveLoop` only in handing the normalized token to the
trie query (claim C2's reading); everything else is unchanged. -/
def abusiveLoopNormTrie (allTokens : List String) : List String → Bool
  | [] => false
  | t :: rest =>
      if safe_words.contains t then abusiveLoopNormTrie allTokens rest
      else if trie.search_prefix (normalize_repeated_chars t) then true
      else if patterns.any (fun p => reMatch p t.data) then true
      else if allTokens.contains "🖕" then true
      else abusiveLoopNormTrie allTokens rest

/-- The classifier built on `abusiveLoopNormTrie` (claim C2's reading). -/
def classifyTokensNormTrie (ratio : String → String → ℚ) (pos neg : List String)
    (tokens : List String) (debug : Bool) : ClassifyResult :=
  if tokens.isEmpty then ⟨"Please give meaningful feedback", .str "", none, none⟩
  else if abusiveLoopNormTrie tokens tokens then ⟨"Abusive", .str "", none, none⟩
  else
    let sa := analyze_sentiment ratio pos neg tokens debug
    { classification := "Clean"
      sentiment := sa
      tokens := if debug then some tokens else none
      details :=
        if debug then
          match sa with
          | .report r => some r
          | .str _ => none
        else none }

/-- `is_abusive` as it would behave if the trie were queried with the
normalized token (claim C2's reading). -/
def is_abusiveNormTrie (ratio : String → String → ℚ) (stop pos neg : List String)
    (text : String) (debug : Bool) : ClassifyResult :=
  classifyTokensNormTrie ratio pos neg (preprocess stop pos neg text) debug

/-- Claim C4's per-token counting rule, written from the spec's words:
exact membership first (short-circuiting), otherwise one positive increment
when some positive word is `≥ 0.8`-similar and, independently, one negative
increment when some negative word is. -/
def specTokenPN (ratio : String → String → ℚ) (pos neg : List String)
    (token : String) : Nat × Nat :=
  let norm := normalize_repeated_chars (pyLower token)
  if pos.contains norm then (1, 0)
  else if neg.contains norm then (0, 1)
  else ((if pos.any fun pw => (4 : ℚ)/5 ≤ ratio norm pw then 1 else 0),
        (if neg.any fun nw => (4 : ℚ)/5 ≤ ratio norm nw then 1 else 0))

/-- Claim C4's positive count: sum of per-token positive increments. -/
def specPosCount (ratio : String → String → ℚ) (pos neg : List String)
    (tokens : List String) : Nat :=
  (tokens.map fun t => (specTokenPN ratio pos neg t).1).sum

/-- Claim C4's negative count. -/
def specNegCount (ratio : String → String → ℚ) (pos neg : List String)
    (tokens : List String) : Nat :=
  (tokens.map fun t => (specTokenPN ratio pos neg t).2).sum

/-- Claim C4's label rule: `"Positive"` iff the positive count exceeds the
negative count, `"Negative"` iff the converse, `"Neutral"` otherwise. -/
def specLabel (p n : Nat) : String :=
  if p > n then "Positive" else if n > p then "Negative" else "Neutral"

/-! ## Theorems -/

/-! ### Correctness of the derivative matcher -/

theorem lang_zero_iff {s : List Char} : Lang .zero s ↔ False := by
  constructor
  · intro h; cases h
  · intro h; exact h.elim

theorem lang_eps_iff {s : List Char} : Lang .eps s ↔ s = [] := by
  constructor
  · intro h; cases h; rfl
  · intro h; subst h; exact Lang.eps

theorem lang_cls_iff {p : Char → Bool} {s : List Char} :
    Lang (.cls p) s ↔ ∃ c, s = [c] ∧ p c = true := by
  constructor
  · intro h; cases h with
    | cls hp => exact ⟨_, rfl, hp⟩
  · rintro ⟨c, rfl, hp⟩; exact Lang.cls hp

theorem lang_cat_iff {a b : RE} {s : List Char} :
    Lang (.cat a b) s ↔ ∃ u v, s = u ++ v ∧ Lang a u ∧ Lang b v := by
  constructor
  · intro h; cases h with
    | cat h1 h2 => exact ⟨_, _, rfl, h1, h2⟩
  · rintro ⟨u, v, rfl, h1, h2⟩; exact Lang.cat h1 h2

theorem lang_alt_iff {a b : RE} {s : List Char} :
    Lang (.alt a b) s ↔ Lang a s ∨ Lang b s := by
  constructor
  · intro h; cases h with
    | altL h => exact Or.inl h
    | altR h => exact Or.inr h
  · rintro (h | h)
    · exact Lang.altL h
    · exact Lang.altR h

theorem lang_star_chunks_of {r : RE} {s : List Char} (h : Lang r s) :
    ∀ a : RE, r = .star a →
      ∃ chunks : List (List Char), s = chunks.flatten ∧ ∀ u ∈ chunks, Lang a u := by
  induction h with
  | eps => intro a ha; cases ha
  | cls _ => intro a ha; cases ha
  | cat _ _ _ _ => intro a ha; cases ha
  | altL _ _ => intro a ha; cases ha
  | altR _ _ => intro a ha; cases ha
  | starNil => intro a ha; exact ⟨[], rfl, by simp⟩
  | @starCons a0 u t h1 h2 ih1 ih2 =>
      intro a ha
      injection ha with ha'
      subst ha'
      obtain ⟨chunks, rfl, hall⟩ := ih2 _ rfl
      refine ⟨u :: chunks, by simp, ?_⟩
      intro v hv
      rcases List.mem_cons.mp hv with rfl | hv
      · exact h1
      · exact hall v hv

theorem lang_star_of_chunks {a : RE} (chunks : List (List Char))
    (hall : ∀ u ∈ chunks, Lang a u) : Lang (.star a) chunks.flatten := by
  induction chunks with
  | nil => exact Lang.starNil
  | cons u rest ih =>
      simpa using Lang.starCons (hall u (by simp))
        (ih fun v hv => hall v (List.mem_cons_of_mem _ hv))

theorem lang_star_iff {a : RE} {s : List Char} :
    Lang (.star a) s ↔
      ∃ chunks : List (List Char), s = chunks.flatten ∧ ∀ u ∈ chunks, Lang a u := by
  constructor
  · intro h; exact lang_star_chunks_of h a rfl
  · rintro ⟨chunks, rfl, hall⟩; exact lang_star_of_chunks chunks hall

theorem chunks_cons_split {a : RE} :
    ∀ chunks : List (List Char), (∀ u ∈ chunks, Lang a u) → chunks.flatten ≠ [] →
      ∃ u v, chunks.flatten = u ++ v ∧ u ≠ [] ∧ Lang a u ∧ Lang (.star a) v := by
  intro chunks
  induction chunks with
  | nil => intro _ hne; simp at hne
  | cons u rest ih =>
      intro hall hne
      by_cases hu : u = []
      · subst hu
        obtain ⟨u', v', heq, hu', h1, h2⟩ :=
          ih (fun v hv => hall v (List.mem_cons_of_mem _ hv)) (by simpa using hne)
        exact ⟨u', v', by simpa using heq, hu', h1, h2⟩
      · refine ⟨u, rest.flatten, by simp, hu, hall u (by simp), ?_⟩
        exact lang_star_of_chunks rest fun v hv => hall v (List.mem_cons_of_mem _ hv)

theorem lang_star_cons_split {a : RE} {s : List Char} (h : Lang (.star a) s)
    (hs : s ≠ []) : ∃ u v, s = u ++ v ∧ u ≠ [] ∧ Lang a u ∧ Lang (.star a) v := by
  obtain ⟨chunks, rfl, hall⟩ := lang_star_iff.mp h
  exact chunks_cons_split chunks hall hs

theorem nullable_iff (r : RE) : r.nullable = true ↔ Lang r [] := by
  induction r with
  | zero => simp [RE.nullable, lang_zero_iff]
  | eps => simp [RE.nullable, lang_eps_iff]
  | cls p => simp [RE.nullable, lang_cls_iff]
  | cat a b iha ihb =>
      simp only [RE.nullable, Bool.and_eq_true, iha, ihb, lang_cat_iff]
      constructor
      · rintro ⟨h1, h2⟩; exact ⟨[], [], rfl, h1, h2⟩
      · rintro ⟨u, v, huv, h1, h2⟩
        rcases List.append_eq_nil.mp huv.symm with ⟨rfl, rfl⟩
        exact ⟨h1, h2⟩
  | alt a b iha ihb =>
      simp [RE.nullable, iha, ihb, lang_alt_iff]
  | star a ih =>
      simp [RE.nullable, Lang.starNil]

theorem deriv_iff (r : RE) (c : Char) (s : List Char) :
    Lang (r.deriv c) s ↔ Lang r (c :: s) := by
  induction r generalizing s with
  | zero => simp [RE.deriv, lang_zero_iff]
  | eps => simp [RE.deriv, lang_zero_iff, lang_eps_iff]
  | cls p =>
      cases hp : p c with
      | true =>
          simp only [RE.deriv, hp, if_true, lang_eps_iff, lang_cls_iff]
          constructor
          · rintro rfl; exact ⟨c, rfl, hp⟩
          · rintro ⟨d, hd, -⟩
            simp only [List.cons.injEq] at hd
            exact hd.2
      | false =>
          simp only [RE.deriv, hp, Bool.false_eq_true, if_false, lang_zero_iff,
            lang_cls_iff, false_iff, not_exists]
          rintro d ⟨hd, hpd⟩
          simp only [List.cons.injEq] at hd
          obtain ⟨rfl, -⟩ := hd
          simp [hp] at hpd
  | cat a b iha ihb =>
      cases hn : a.nullable with
      | true =>
          simp only [RE.deriv, hn, if_true, lang_alt_iff, lang_cat_iff]
          constructor
          · rintro (⟨u, v, rfl, h1, h2⟩ | h)
            · exact ⟨c :: u, v, rfl, (iha u).mp h1, h2⟩
            · exact ⟨[], c :: s, rfl, (nullable_iff a).mp hn, (ihb s).mp h⟩
          · rintro ⟨u, v, huv, h1, h2⟩
            cases u with
            | nil =>
                right
                simp only [List.nil_append] at huv
                subst huv
                exact (ihb s).mpr h2
            | cons d u =>
                left
                injection huv with he ht
                subst he
                subst ht
                exact ⟨u, v, rfl, (iha u).mpr h1, h2⟩
      | false =>
          simp only [RE.deriv, hn, Bool.false_eq_true, if_false, lang_cat_iff]
          constructor
          · rintro ⟨u, v, rfl, h1, h2⟩
            exact ⟨c :: u, v, rfl, (iha u).mp h1, h2⟩
          · rintro ⟨u, v, huv, h1, h2⟩
            cases u with
            | nil =>
                simp only [List.nil_append] at huv
                have := (nullable_iff a).mpr h1
                simp [hn] at this
            | cons d u =>
                injection huv with he ht
                subst he
                subst ht
                exact ⟨u, v, rfl, (iha u).mpr h1, h2⟩
  | alt a b iha ihb =>
      simp [RE.deriv, lang_alt_iff, iha, ihb]
  | star a ih =>
      simp only [RE.deriv, lang_cat_iff]
      constructor
      · rintro ⟨u, v, rfl, h1, h2⟩
        exact Lang.starCons ((ih u).mp h1) h2
      · intro h
        obtain ⟨u, v, huv, hune, h1, h2⟩ := lang_star_cons_split h (by simp)
        cases u with
        | nil => exact absurd rfl hune
        | cons d u =>
            injection huv with he ht
            subst he
            subst ht
            exact ⟨u, v, rfl, (ih u).mpr h1, h2⟩

theorem reMatch_iff (r : RE) (s : List Char) : reMatch r s = true ↔ Lang r s := by
  induction s generalizing r with
  | nil => exact nullable_iff r
  | cons c s ih =>
      have : reMatch r (c :: s) = reMatch (r.deriv c) s := rfl
      rw [this, ih (r.deriv c)]
      exact deriv_iff r c s

/-! ### Characterizing the obfuscation-pattern language -/

theorem segs_length_le {cs m : List Char} (h : Segs cs m) :
    cs.length ≤ m.length := by
  induction h with
  | nil => simp
  | @cons c cs s t h1 h2 ih =>
      have hs : 1 ≤ s.length := by
        rcases h1 with ⟨d, rfl, -⟩ | ⟨hne, -⟩
        · simp
        · exact List.length_pos.mpr hne
      simp only [List.length_cons, List.length_append]
      omega

theorem lang_star_cls {p : Char → Bool} {s : List Char} :
    Lang (.star (.cls p)) s ↔ ∀ c ∈ s, p c = true := by
  constructor
  · intro h
    obtain ⟨chunks, rfl, hall⟩ := lang_star_iff.mp h
    intro c hc
    obtain ⟨u, hu, hcu⟩ := List.mem_flatten.mp hc
    obtain ⟨d, rfl, hd⟩ := lang_cls_iff.mp (hall u hu)
    rcases List.mem_singleton.mp hcu with rfl
    exact hd
  · intro h
    induction s with
    | nil => exact Lang.starNil
    | cons c rest ih =>
        have hsplit : c :: rest = [c] ++ rest := rfl
        rw [hsplit]
        exact Lang.starCons (Lang.cls (h c (by simp)))
          (ih fun d hd => h d (by simp [hd]))

theorem lang_plus_cls {p : Char → Bool} {s : List Char} :
    Lang (plusRE (.cls p)) s ↔ s ≠ [] ∧ ∀ c ∈ s, p c = true := by
  unfold plusRE
  rw [lang_cat_iff]
  constructor
  · rintro ⟨u, v, rfl, h1, h2⟩
    obtain ⟨c, rfl, hc⟩ := lang_cls_iff.mp h1
    have hv := lang_star_cls.mp h2
    refine ⟨by simp, ?_⟩
    intro d hd
    rcases List.mem_cons.mp hd with rfl | hd
    · exact hc
    · exact hv d hd
  · rintro ⟨hne, hall⟩
    cases s with
    | nil => exact absurd rfl hne
    | cons c rest =>
        exact ⟨[c], rest, rfl, Lang.cls (hall c (by simp)),
          lang_star_cls.mpr fun d hd => hall d (by simp [hd])⟩

theorem lang_blockAlt_single {c x : Char}
    (h : eqIC c x = true ∨ symCls x = true) :
    Lang (.alt (.cls (eqIC c)) OBFUSCATION) [x] := by
  rcases h with h | h
  · exact Lang.altL (Lang.cls h)
  · exact Lang.altR (lang_plus_cls.mpr ⟨by simp, by simpa using h⟩)

theorem lang_star_blockAlt {c : Char} {s : List Char}
    (h : ∀ x ∈ s, eqIC c x = true ∨ symCls x = true) :
    Lang (.star (.alt (.cls (eqIC c)) OBFUSCATION)) s := by
  induction s with
  | nil => exact Lang.starNil
  | cons x rest ih =>
      have hsplit : x :: rest = [x] ++ rest := rfl
      rw [hsplit]
      exact Lang.starCons (lang_blockAlt_single (h x (by simp)))
        (ih fun d hd => h d (by simp [hd]))

theorem lang_midBlock {c : Char} {s : List Char} :
    Lang (plusRE (.alt (.cls (eqIC c)) OBFUSCATION)) s ↔ MidBlock c s := by
  constructor
  · intro h
    rw [plusRE, lang_cat_iff] at h
    obtain ⟨u, v, rfl, h1, h2⟩ := h
    have hchar : ∀ w, Lang (.alt (.cls (eqIC c)) OBFUSCATION) w →
        ∀ x ∈ w, eqIC c x = true ∨ symCls x = true := by
      intro w hw x hx
      rw [lang_alt_iff] at hw
      rcases hw with hw | hw
      · obtain ⟨d, rfl, hd⟩ := lang_cls_iff.mp hw
        rcases List.mem_singleton.mp hx with rfl
        exact Or.inl hd
      · obtain ⟨-, hall⟩ := lang_plus_cls.mp hw
        exact Or.inr (hall x hx)
    have hu : u ≠ [] := by
      intro hnil
      subst hnil
      rcases lang_alt_iff.mp h1 with hw | hw
      · obtain ⟨d, hd, -⟩ := lang_cls_iff.mp hw
        cases hd
      · obtain ⟨hne, -⟩ := lang_plus_cls.mp hw
        exact hne rfl
    refine ⟨by simp [hu], ?_⟩
    intro x hx
    rcases List.mem_append.mp hx with hx | hx
    · exact hchar u h1 x hx
    · obtain ⟨chunks, rfl, hall⟩ := lang_star_iff.mp h2
      obtain ⟨w, hw, hxw⟩ := List.mem_flatten.mp hx
      exact hchar w (hall w hw) x hxw
  · rintro ⟨hne, hall⟩
    cases s with
    | nil => exact absurd rfl hne
    | cons x rest =>
        rw [plusRE, lang_cat_iff]
        exact ⟨[x], rest, rfl, lang_blockAlt_single (hall x (by simp)),
          lang_star_blockAlt fun d hd => hall d (by simp [hd])⟩

theorem lang_obfMiddle {cs s : List Char} :
    Lang (obfMiddle cs) s ↔ Blocks cs s := by
  induction cs generalizing s with
  | nil =>
      simp only [obfMiddle, lang_eps_iff]
      constructor
      · rintro rfl; exact Blocks.nil
      · intro h; cases h; rfl
  | cons c cs ih =>
      simp only [obfMiddle, lang_cat_iff]
      constructor
      · rintro ⟨u, v, rfl, h1, h2⟩
        exact Blocks.cons (lang_midBlock.mp h1) (ih.mp h2)
      · intro hb
        cases hb with
        | cons hm hrest => exact ⟨_, _, rfl, lang_midBlock.mpr hm, ih.mpr hrest⟩

/-- The compiled obfuscation pattern for `w` accepts exactly
`AmendedObfLang w`. -/
theorem create_obfuscation_regex_lang {w t : List Char} :
    reMatch (create_obfuscation_regex w) t = true ↔ AmendedObfLang w t := by
  rw [reMatch_iff]
  unfold create_obfuscation_regex
  constructor
  · intro h
    rw [lang_cat_iff] at h
    obtain ⟨u1, rest1, rfl, h1, hrest⟩ := h
    obtain ⟨f, rfl, hf⟩ := lang_cls_iff.mp h1
    rw [lang_cat_iff] at hrest
    obtain ⟨u2, rest2, rfl, h2, hrest2⟩ := hrest
    rw [lang_cat_iff] at hrest2
    obtain ⟨u3, u4, rfl, h3, h4⟩ := hrest2
    obtain ⟨l, rfl, hl⟩ := lang_cls_iff.mp h4
    have hfill3 : Fill u3 := lang_star_cls.mp h3
    rw [lang_alt_iff] at h2
    rcases h2 with h2 | h2
    · rw [lang_eps_iff] at h2
      subst h2
      exact ⟨f, u3, l, by simp, hf, hl, Or.inl hfill3⟩
    · rw [lang_cat_iff] at h2
      obtain ⟨fl1, mid, rfl, hfl1, hmid⟩ := h2
      exact ⟨f, fl1 ++ mid ++ u3, l, by simp, hf, hl,
        Or.inr ⟨fl1, mid, u3, rfl, lang_star_cls.mp hfl1,
          lang_obfMiddle.mp hmid, hfill3⟩⟩
  · rintro ⟨f, body, l, rfl, hf, hl, hcase⟩
    rcases hcase with hfill | ⟨fl1, mid, fl2, rfl, hfl1, hmid, hfl2⟩
    · have hshape : f :: (body ++ [l]) = [f] ++ ([] ++ (body ++ [l])) := by simp
      rw [hshape]
      exact Lang.cat (Lang.cls hf)
        (Lang.cat (Lang.altL Lang.eps)
          (Lang.cat (lang_star_cls.mpr hfill) (Lang.cls hl)))
    · have hshape : f :: (fl1 ++ mid ++ fl2 ++ [l]) =
          [f] ++ ((fl1 ++ mid) ++ (fl2 ++ [l])) := by simp
      rw [hshape]
      exact Lang.cat (Lang.cls hf)
        (Lang.cat
          (Lang.altR (Lang.cat (lang_star_cls.mpr hfl1) (lang_obfMiddle.mpr hmid)))
          (Lang.cat (lang_star_cls.mpr hfl2) (Lang.cls hl)))

/-! ### The normalizer keeps at most two consecutive copies -/

theorem hasTriple_cons_of {c : Char} {l : List Char} (h1 : hasTriple l = false)
    (h2 : leadCount c l ≤ 1) : hasTriple (c :: l) = false := by
  match l with
  | [] => rfl
  | [b] => rfl
  | b :: d :: rest =>
      rw [hasTriple]
      rw [h1, Bool.or_false]
      by_cases hcb : c = b
      · have hd : (b == d) = false := by
          rw [leadCount, if_pos hcb.symm] at h2
          have h0 : leadCount c (d :: rest) = 0 := by omega
          rw [leadCount] at h0
          by_cases hdc : d = c
          · rw [if_pos hdc] at h0; omega
          · exact beq_eq_false_iff_ne.mpr fun hbd => hdc (hbd ▸ hcb.symm)
        simp [hd]
      · have hcb' : (c == b) = false := beq_eq_false_iff_ne.mpr hcb
        simp [hcb']

theorem normalizeAux_cons_eq (c : Char) (rest : List Char) (prev : Option Char)
    (cnt : Nat) :
    normalizeAux (c :: rest) prev cnt =
      if (if some c = prev then cnt + 1 else 1) ≤ 2
      then c :: normalizeAux rest (some c) (if some c = prev then cnt + 1 else 1)
      else normalizeAux rest (some c) (if some c = prev then cnt + 1 else 1) := rfl

theorem normalizeAux_inv (l : List Char) :
    ∀ (p : Char) (cnt : Nat), 1 ≤ cnt →
      hasTriple (normalizeAux l (some p) cnt) = false ∧
      leadCount p (normalizeAux l (some p) cnt) + min cnt 2 ≤ 2 := by
  induction l with
  | nil =>
      intro p cnt hc
      refine ⟨rfl, ?_⟩
      simp only [normalizeAux, leadCount]
      omega
  | cons c rest ih =>
      intro p cnt hc
      rw [normalizeAux_cons_eq]
      by_cases hcp : some c = some p
      · have hceq : c = p := by injection hcp
        subst hceq
        rw [if_pos rfl]
        by_cases h2 : cnt + 1 ≤ 2
        · rw [if_pos h2]
          have hcnt1 : cnt = 1 := by omega
          subst hcnt1
          obtain ⟨ht, hl⟩ := ih c (1 + 1) (by omega)
          have hmin : min (1 + 1) 2 = 2 := rfl
          rw [hmin] at hl
          have hl0 : leadCount c (normalizeAux rest (some c) (1 + 1)) = 0 := by
            omega
          constructor
          · exact hasTriple_cons_of ht (by omega)
          · rw [leadCount, if_pos rfl, hl0]
            omega
        · rw [if_neg h2]
          obtain ⟨ht, hl⟩ := ih c (cnt + 1) (by omega)
          refine ⟨ht, ?_⟩
          omega
      · rw [if_neg hcp]
        rw [if_pos (by omega : (1 : Nat) ≤ 2)]
        obtain ⟨ht, hl⟩ := ih c 1 (by omega)
        have hl1 : leadCount c (normalizeAux rest (some c) 1) ≤ 1 := by omega
        constructor
        · exact hasTriple_cons_of ht hl1
        · have hpc : ¬ c = p := fun h => hcp (by rw [h])
          rw [leadCount, if_neg hpc]
          omega

theorem normalize_no_triple (w : String) :
    hasTriple (normalize_repeated_chars w).data = false := by
  show hasTriple (normalizeAux w.data none 0) = false
  cases w.data with
  | nil => rfl
  | cons c rest =>
      rw [normalizeAux_cons_eq, if_neg (Option.some_ne_none c)]
      rw [if_pos (by omega : (1 : Nat) ≤ 2)]
      obtain ⟨ht, hl⟩ := normalizeAux_inv rest c 1 (by omega)
      exact hasTriple_cons_of ht (by omega)

theorem normalizeAux_sublist (l : List Char) :
    ∀ (prev : Option Char) (cnt : Nat), (normalizeAux l prev cnt).Sublist l := by
  induction l with
  | nil => intro prev cnt; simp [normalizeAux]
  | cons c rest ih =>
      intro prev cnt
      simp only [normalizeAux]
      by_cases h : (if some c = prev then cnt + 1 else 1) ≤ 2
      · rw [if_pos h]
        exact List.Sublist.cons₂ c (ih _ _)
      · rw [if_neg h]
        exact List.Sublist.cons c (ih _ _)

/-! ### Trie correctness -/

theorem searchFrom_new : ∀ t : List Char, searchFrom TrieNode.new t = false
  | [] => rfl
  | _ :: _ => rfl

theorem searchFrom_nil (node : TrieNode) : searchFrom node [] = false := rfl

theorem children_mk (cs : List (Char × TrieNode)) (e : Bool) :
    TrieNode.children (.mk cs e) = cs := rfl

theorem isEnd_mk (cs : List (Char × TrieNode)) (e : Bool) :
    TrieNode.is_end_of_word (.mk cs e) = e := rfl

theorem searchFrom_cons (node : TrieNode) (c : Char) (rest : List Char) :
    searchFrom node (c :: rest) =
      match lookupChild node.children c with
      | none => false
      | some child => child.is_end_of_word || searchFrom child rest := rfl

theorem insertAux_cons (node : TrieNode) (c : Char) (rest : List Char) :
    insertAux node (c :: rest) =
      .mk (setChild node.children c
            (insertAux ((lookupChild node.children c).getD TrieNode.new) rest))
        node.is_end_of_word := rfl

theorem lookupChild_set_self (l : List (Char × TrieNode)) (c : Char)
    (v : TrieNode) : lookupChild (setChild l c v) c = some v := by
  induction l with
  | nil => simp [setChild, lookupChild]
  | cons p rest ih =>
      obtain ⟨d, n⟩ := p
      by_cases hdc : d = c
      · simp [setChild, lookupChild, hdc]
      · simp [setChild, lookupChild, hdc, ih]

theorem lookupChild_set_other (l : List (Char × TrieNode)) {c d : Char}
    (v : TrieNode) (h : c ≠ d) :
    lookupChild (setChild l c v) d = lookupChild l d := by
  induction l with
  | nil => simp [setChild, lookupChild, fun hh : c = d => h hh]
  | cons p rest ih =>
      obtain ⟨e, n⟩ := p
      by_cases hec : e = c
      · subst hec
        simp [setChild, lookupChild, fun hh : e = d => h hh, ih]
      · simp only [setChild, if_neg hec]
        by_cases hed : e = d
        · simp [lookupChild, hed]
        · simp [lookupChild, hed, ih]

theorem insertAux_isEnd (node : TrieNode) :
    ∀ w : List Char, (insertAux node w).is_end_of_word =
      (node.is_end_of_word || w.isEmpty)
  | [] => by simp [insertAux, TrieNode.is_end_of_word]
  | c :: rest => by simp [insertAux, TrieNode.is_end_of_word]

theorem searchFrom_insertAux (w : List Char) :
    ∀ (node : TrieNode) (t : List Char),
      (searchFrom (insertAux node w) t = true ↔
        searchFrom node t = true ∨ (w ≠ [] ∧ w <+: t)) := by
  induction w with
  | nil =>
      intro node t
      obtain ⟨cs, e⟩ := node
      cases t with
      | nil => simp [searchFrom_nil]
      | cons d t' =>
          constructor
          · intro h; exact Or.inl h
          · rintro (h | ⟨hne, -⟩)
            · exact h
            · exact absurd rfl hne
  | cons c w' ih =>
      intro node t
      obtain ⟨cs, e⟩ := node
      cases t with
      | nil =>
          simp [searchFrom_nil, List.prefix_nil]
      | cons d t' =>
          rw [insertAux_cons, searchFrom_cons, searchFrom_cons]
          simp only [children_mk, isEnd_mk]
          by_cases hdc : d = c
          · subst hdc
            simp only [lookupChild_set_self]
            cases hnd : lookupChild cs d with
            | none =>
                simp only [hnd, Option.getD_none, Bool.or_eq_true, ih TrieNode.new t',
                  insertAux_isEnd, searchFrom_new t', List.cons_prefix_cons]
                by_cases hw : w' = [] <;>
                  simp [hw, List.nil_prefix, TrieNode.new, isEnd_mk]
            | some child0 =>
                simp only [hnd, Option.getD_some, Bool.or_eq_true, ih child0 t',
                  insertAux_isEnd, List.cons_prefix_cons]
                by_cases hw : w' = [] <;>
                  by_cases hc0 : child0.is_end_of_word = true <;>
                    by_cases hs0 : searchFrom child0 t' = true <;>
                      simp [hw, hc0, hs0, List.nil_prefix]
          · rw [lookupChild_set_other _ _ (fun h => hdc h.symm)]
            have hpre : ¬ (c :: w' <+: d :: t') := by
              rw [List.cons_prefix_cons]
              rintro ⟨h, -⟩
              exact hdc h.symm
            simp [hpre]

theorem search_prefix_foldl :
    ∀ (ws : List String) (tr : Trie) (t : String),
      ( Trie.search_prefix (ws.foldl Trie.insert tr) t = true ↔
        Trie.search_prefix tr t = true ∨
          ∃ w ∈ ws, w.data ≠ [] ∧ w.data <+: t.data) := by
  intro ws
  induction ws with
  | nil => intro tr t; simp
  | cons w ws ih =>
      intro tr t
      rw [List.foldl_cons, ih (tr.insert w) t]
      show searchFrom (insertAux tr.root w.data) t.data = true ∨ _ ↔ _
      rw [searchFrom_insertAux]
      constructor
      · rintro ((h | h) | ⟨v, hv, hne, hp⟩)
        · exact Or.inl h
        · exact Or.inr ⟨w, by simp, h⟩
        · exact Or.inr ⟨v, by simp [hv], hne, hp⟩
      · rintro (h | ⟨v, hv, hne, hp⟩)
        · exact Or.inl (Or.inl h)
        · rcases List.mem_cons.mp hv with rfl | hv
          · exact Or.inl (Or.inr ⟨hne, hp⟩)
          · exact Or.inr ⟨v, hv, hne, hp⟩

/-! ### The sentiment scorer computes claim C4's counts -/

theorem filter_map_isEmpty {α β : Type} (l : List α) (q : α → Bool) (f : α → β) :
    ((l.filter q).map f).isEmpty = !l.any q := by
  induction l with
  | nil => rfl
  | cons a rest ih =>
      rw [List.filter_cons, List.any_cons]
      cases hq : q a
      · simpa using ih
      · simp

theorem if_not_bool (b : Bool) : (if (!b) = true then (0 : Nat) else 1) =
    (if b = true then 1 else 0) := by
  cases b <;> rfl

theorem analyzeStep_counts (ratio : String → String → ℚ) (pos neg : List String)
    (acc : Nat × Nat × List TokenInfo) (t : String) :
    (analyzeStep ratio pos neg acc t).1 = acc.1 + (specTokenPN ratio pos neg t).1 ∧
    (analyzeStep ratio pos neg acc t).2.1 = acc.2.1 + (specTokenPN ratio pos neg t).2 := by
  simp only [analyzeStep, specTokenPN]
  by_cases h1 : pos.contains (normalize_repeated_chars (pyLower t)) = true
  · rw [if_pos h1, if_pos h1]
    exact ⟨rfl, rfl⟩
  · rw [if_neg h1, if_neg h1]
    by_cases h2 : neg.contains (normalize_repeated_chars (pyLower t)) = true
    · rw [if_pos h2, if_pos h2]
      exact ⟨rfl, rfl⟩
    · rw [if_neg h2, if_neg h2]
      rw [filter_map_isEmpty, filter_map_isEmpty, if_not_bool, if_not_bool]
      exact ⟨rfl, rfl⟩

theorem analyzeFold_counts (ratio : String → String → ℚ) (pos neg : List String) :
    ∀ (tokens : List String) (acc : Nat × Nat × List TokenInfo),
      (tokens.foldl (analyzeStep ratio pos neg) acc).1 =
        acc.1 + specPosCount ratio pos neg tokens ∧
      (tokens.foldl (analyzeStep ratio pos neg) acc).2.1 =
        acc.2.1 + specNegCount ratio pos neg tokens := by
  intro tokens
  induction tokens with
  | nil => intro acc; simp [specPosCount, specNegCount]
  | cons t rest ih =>
      intro acc
      rw [List.foldl_cons]
      obtain ⟨ha, hb⟩ := ih (analyzeStep ratio pos neg acc t)
      obtain ⟨hc, hd⟩ := analyzeStep_counts ratio pos neg acc t
      constructor
      · rw [ha, hc]
        simp only [specPosCount, List.map_cons, List.sum_cons]
        omega
      · rw [hb, hd]
        simp only [specNegCount, List.map_cons, List.sum_cons]
        omega

theorem sentimentLabel_cases (p n : Nat) :
    sentimentLabel p n = "Positive" ∨ sentimentLabel p n = "Negative" ∨
      sentimentLabel p n = "Neutral" := by
  unfold sentimentLabel
  by_cases h1 : n < p
  · rw [if_pos h1]; exact Or.inl rfl
  · rw [if_neg h1]
    by_cases h2 : p < n
    · rw [if_pos h2]; exact Or.inr (Or.inl rfl)
    · rw [if_neg h2]; exact Or.inr (Or.inr rfl)

/-! ### The abusive-token loop -/

theorem abusiveLoop_cons_eq (all rest : List String) (t : String) :
    abusiveLoop all (t :: rest) =
      (if safe_words.contains t then abusiveLoop all rest
       else if trie.search_prefix t then true
       else if patterns.any (fun p => reMatch p t.data) then true
       else if all.contains "🖕" then true
       else abusiveLoop all rest) := rfl

theorem abusiveLoop_gandhi (all : List String) :
    ∀ rest : List String, "gandhi" ∈ rest → abusiveLoop all rest = true := by
  intro rest
  induction rest with
  | nil => intro h; simp at h
  | cons t rest ih =>
      intro hmem
      rw [abusiveLoop_cons_eq]
      rcases List.mem_cons.mp hmem with rfl | hmem
      · have hsafe : safe_words.contains "gandhi" = false := by decide
        have htrie : trie.search_prefix "gandhi" = true := by decide
        rw [hsafe, htrie]
        simp
      · by_cases h1 : safe_words.contains t = true
        · rw [if_pos h1]
          exact ih hmem
        · rw [if_neg h1]
          by_cases h2 : trie.search_prefix t = true
          · rw [if_pos h2]
          · rw [if_neg h2]
            by_cases h3 : patterns.any (fun p => reMatch p t.data) = true
            · rw [if_pos h3]
            · rw [if_neg h3]
              by_cases h4 : all.contains "🖕" = true
              · rw [if_pos h4]
              · rw [if_neg h4]
                exact ih hmem

/-! ## Claims -/

/-- C1 (amended): for every word `w` of length ≥ 2 (in particular every
abusive-word entry) and every token `t`, the compiled obfuscation pattern
fully matches `t` (case-insensitively) iff `t` begins with `w`'s first
character and ends with `w`'s last character and in between carries either
only non-word/underscore filler (the middle section of the pattern is
optional as a whole), or optional filler, then, for each middle character of
`w` in order, a nonempty block of characters each being that character or a
symbol from `* # x @ $ % & ^ !` (so middle characters may repeat and mix with
symbols), then optional filler; never a proper substring. -/
theorem obfuscation_pattern_language (w t : List Char) (_h : 2 ≤ w.length) :
    reMatch (create_obfuscation_regex w) t = true ↔ AmendedObfLang w t :=
  create_obfuscation_regex_lang

theorem obfuscation_pattern_language_witness :
    2 ≤ "fuck".data.length ∧
    (reMatch (create_obfuscation_regex "fuck".data) "f**k".data = true ↔
      AmendedObfLang "fuck".data "f**k".data) :=
  ⟨by decide, obfuscation_pattern_language "fuck".data "f**k".data (by decide)⟩

/-- C1 (counterexample): `"fuck"` is an abusive-word entry of length ≥ 2
whose compiled pattern fully matches the token `"fk"`, yet `"fk"` is not a
symbol-obfuscated spelling of `"fuck"` in the claim's sense (each middle
character appearing as itself or replaced by one-or-more symbols): the
claimed "if and only if" fails. -/
theorem obfuscation_pattern_claim_counterexample :
    abusive_words.contains "fuck" = true ∧
    2 ≤ "fuck".data.length ∧
    reMatch (create_obfuscation_regex "fuck".data) "fk".data = true ∧
    ¬ ClaimedObfLang "fuck".data "fk".data := by
  refine ⟨by decide, by decide, by decide, ?_⟩
  rintro ⟨f, fl1, mid, fl2, l, heq, -, -, -, -, hsegs⟩
  have hlen := segs_length_le hsegs
  have hmid : (wordMiddle "fuck".data).length = 2 := by decide
  rw [hmid] at hlen
  have hcong := congrArg List.length heq
  have htk : ("fk".data).length = 2 := by decide
  rw [htk] at hcong
  simp only [List.length_cons, List.length_append, List.length_singleton] at hcong
  omega

/-- C2 (amended): the trie query issued by the classifier receives the raw
token, not the normalized form: on a non-safe token the loop's verdict is
exactly the disjunction of the raw-token trie query, the obfuscation-pattern
check, the emoji check and the rest of the loop; and the classifier does not
coincide with the variant that normalizes tokens before the trie query. -/
theorem trie_query_receives_raw_token :
    (∀ (all rest : List String) (t : String), safe_words.contains t = false →
      abusiveLoop all (t :: rest) =
        ( trie.search_prefix t || patterns.any (fun p => reMatch p t.data) ||
          all.contains "🖕" || abusiveLoop all rest)) ∧
    ¬ (∀ (ratio : String → String → ℚ) (stop pos neg : List String)
        (text : String) (debug : Bool),
        is_abusive ratio stop pos neg text debug =
          is_abusiveNormTrie ratio stop pos neg text debug) := by
  constructor
  · intro all rest t hsafe
    rw [abusiveLoop_cons_eq, hsafe]
    cases ha : trie.search_prefix t <;>
      cases hb : patterns.any (fun p => reMatch p t.data) <;>
        cases hc : all.contains "🖕" <;>
          simp [ha, hb, hc]
  · intro hall
    have hpre : preprocess [] [] [] "tatttiya" = ["tatttiya"] := by
      simp [preprocess, pyLower, pyStrip, findTokens, isTokenChar, isEmojiChar]
    have h := hall (fun _ _ => (0 : ℚ)) [] [] [] "tatttiya" false
    unfold is_abusive is_abusiveNormTrie at h
    rw [hpre] at h
    exact absurd (congrArg ClassifyResult.classification h) (by decide)

theorem trie_query_receives_raw_token_witness :
    safe_words.contains "tatti" = false ∧
    abusiveLoop [] ["tatti"] =
      ( trie.search_prefix "tatti" ||
        patterns.any (fun p => reMatch p "tatti".data) ||
        ([] : List String).contains "🖕" || abusiveLoop [] []) :=
  ⟨by decide, trie_query_receives_raw_token.1 [] [] "tatti" (by decide)⟩

/-- C2 (counterexample): on the input `"tatttiya"` the classifier reports
"Clean" (the raw token has no abusive trie prefix and no pattern matches)
while the variant that normalizes before the trie query reports "Abusive"
(normalizing collapses `"ttt"` so `"tatti"` becomes a prefix): the claim that
the trie receives the normalized token is false of the code. -/
theorem trie_query_normalized_counterexample :
    (is_abusive (fun _ _ => (0 : ℚ)) [] [] [] "tatttiya" false).classification =
      "Clean" ∧
    (is_abusiveNormTrie (fun _ _ => (0 : ℚ)) [] [] [] "tatttiya"
      false).classification = "Abusive" ∧
    trie.search_prefix "tatttiya" = false ∧
    trie.search_prefix (normalize_repeated_chars "tatttiya") = true := by
  have hpre : preprocess [] [] [] "tatttiya" = ["tatttiya"] := by
    simp [preprocess, pyLower, pyStrip, findTokens, isTokenChar, isEmojiChar]
  have k1 : is_abusive (fun _ _ => (0 : ℚ)) [] [] [] "tatttiya" false =
      classifyTokens (fun _ _ => (0 : ℚ)) [] [] ["tatttiya"] false := by
    unfold is_abusive
    rw [hpre]
  have k2 : is_abusiveNormTrie (fun _ _ => (0 : ℚ)) [] [] [] "tatttiya" false =
      classifyTokensNormTrie (fun _ _ => (0 : ℚ)) [] [] ["tatttiya"] false := by
    unfold is_abusiveNormTrie
    rw [hpre]
  rw [k1, k2]
  exact ⟨by decide, by decide, by decide, by decide⟩

/-- C3: for every list of inserted words and every query token,
`search_prefix` returns true iff some inserted nonempty word is a prefix of
the token; inserting `"chut"` alone makes `search_prefix "chutiya"` true; and
with the program's abusive-word list, `search_prefix "ch"` is false. -/
theorem trie_search_prefix_correct :
    (∀ (ws : List String) (t : String),
      ( Trie.search_prefix (ws.foldl Trie.insert Trie.new) t = true ↔
        ∃ w ∈ ws, w.data ≠ [] ∧ w.data <+: t.data)) ∧
    Trie.search_prefix (Trie.insert Trie.new "chut") "chutiya" = true ∧
    trie.search_prefix "ch" = false := by
  refine ⟨?_, by decide, by decide⟩
  intro ws t
  rw [search_prefix_foldl]
  have hbase : Trie.search_prefix Trie.new t = false := searchFrom_new t.data
  rw [hbase]
  simp

/-- C4: `analyze_sentiment` counts per token exactly as the claim describes
(normalize; exact positive membership short-circuits; exact negative next;
otherwise an independent positive increment when some positive word has
similarity ≥ 0.8 to the normalized form and an independent negative increment
when some negative word does, so one token may increment both), and for both
debug settings the resulting label is "Positive" iff positive > negative,
"Negative" iff negative > positive, and "Neutral" otherwise. -/
theorem analyze_sentiment_spec (ratio : String → String → ℚ)
    (pos neg tokens : List String) :
    (tokens.foldl (analyzeStep ratio pos neg) (0, 0, [])).1 =
      specPosCount ratio pos neg tokens ∧
    (tokens.foldl (analyzeStep ratio pos neg) (0, 0, [])).2.1 =
      specNegCount ratio pos neg tokens ∧
    ∀ debug : Bool,
      SentimentValue.labelOf (analyze_sentiment ratio pos neg tokens debug) =
        specLabel (specPosCount ratio pos neg tokens)
          (specNegCount ratio pos neg tokens) := by
  obtain ⟨h1, h2⟩ := analyzeFold_counts ratio pos neg tokens (0, 0, [])
  have hp : (tokens.foldl (analyzeStep ratio pos neg) (0, 0, [])).1 =
      specPosCount ratio pos neg tokens := by simpa using h1
  have hn : (tokens.foldl (analyzeStep ratio pos neg) (0, 0, [])).2.1 =
      specNegCount ratio pos neg tokens := by simpa using h2
  refine ⟨hp, hn, ?_⟩
  intro debug
  have hlab : SentimentValue.labelOf (analyze_sentiment ratio pos neg tokens debug) =
      sentimentLabel (tokens.foldl (analyzeStep ratio pos neg) (0, 0, [])).1
        (tokens.foldl (analyzeStep ratio pos neg) (0, 0, [])).2.1 := by
    unfold analyze_sentiment
    cases debug
    · rfl
    · rfl
  rw [hlab, hp, hn]
  rfl

/-- C5 (amended): with debug off, the result's `sentiment` field is the
string "Positive"/"Negative"/"Neutral" when the classification is "Clean" and
the empty string otherwise, and `tokens`/`details` are absent; with debug on
and a "Clean" classification, the `sentiment` field holds the full per-token
analysis structure (not one of the three label strings) whose label is one of
the three, and the `tokens` and `details` fields are added; when the
classification is not "Clean", `sentiment` is the empty string and the debug
fields stay absent. -/
theorem sentiment_field_shape (ratio : String → String → ℚ)
    (stop pos neg : List String) (text : String) (debug : Bool) :
    ((is_abusive ratio stop pos neg text debug).classification = "Clean" →
      (debug = false → ∃ s,
        (is_abusive ratio stop pos neg text debug).sentiment =
          SentimentValue.str s ∧
        (s = "Positive" ∨ s = "Negative" ∨ s = "Neutral") ∧
        (is_abusive ratio stop pos neg text debug).tokens = none ∧
        (is_abusive ratio stop pos neg text debug).details = none) ∧
      (debug = true → ∃ rep,
        (is_abusive ratio stop pos neg text debug).sentiment =
          SentimentValue.report rep ∧
        (rep.label = "Positive" ∨ rep.label = "Negative" ∨
          rep.label = "Neutral") ∧
        (is_abusive ratio stop pos neg text debug).tokens =
          some (preprocess stop pos neg text) ∧
        (is_abusive ratio stop pos neg text debug).details = some rep)) ∧
    ((is_abusive ratio stop pos neg text debug).classification ≠ "Clean" →
      (is_abusive ratio stop pos neg text debug).sentiment =
        SentimentValue.str "" ∧
      (is_abusive ratio stop pos neg text debug).tokens = none ∧
      (is_abusive ratio stop pos neg text debug).details = none) := by
  unfold is_abusive classifyTokens
  by_cases hemp : (preprocess stop pos neg text).isEmpty = true
  · rw [if_pos hemp]
    exact ⟨fun h => absurd h (by decide), fun _ => ⟨rfl, rfl, rfl⟩⟩
  · rw [if_neg hemp]
    by_cases habs : abusiveLoop (preprocess stop pos neg text)
        (preprocess stop pos neg text) = true
    · rw [if_pos habs]
      exact ⟨fun h => absurd h (by decide), fun _ => ⟨rfl, rfl, rfl⟩⟩
    · rw [if_neg habs]
      refine ⟨fun _ => ⟨?_, ?_⟩, fun h => absurd rfl h⟩
      · rintro rfl
        exact ⟨sentimentLabel _ _, rfl, sentimentLabel_cases _ _, rfl, rfl⟩
      · rintro rfl
        exact ⟨⟨sentimentLabel _ _, _, _, _⟩, rfl, sentimentLabel_cases _ _,
          rfl, rfl⟩

theorem sentiment_field_shape_witness :
    (is_abusive (fun _ _ => (0 : ℚ)) [] [] [] "" false).classification ≠
      "Clean" ∧
    (is_abusive (fun _ _ => (0 : ℚ)) [] [] [] "" false).sentiment =
      SentimentValue.str "" ∧
    (is_abusive (fun _ _ => (0 : ℚ)) [] [] [] "" false).tokens = none ∧
    (is_abusive (fun _ _ => (0 : ℚ)) [] [] [] "" false).details = none := by
  have hpre : preprocess [] [] [] "" = [] := by
    simp [preprocess, pyLower, pyStrip, findTokens]
  have hne : (is_abusive (fun _ _ => (0 : ℚ)) [] [] [] "" false).classification ≠
      "Clean" := by
    unfold is_abusive
    rw [hpre]
    decide
  have h := (sentiment_field_shape (fun _ _ => (0 : ℚ)) [] [] [] "" false).2 hne
  exact ⟨hne, h.1, h.2.1, h.2.2⟩

/-- C5 (counterexample): on the clean input `"hello"` with debug on, the
`sentiment` field holds the whole analysis structure, not one of the strings
"Positive"/"Negative"/"Neutral" (nor the empty string): debug mode does not
merely add the `tokens` and `details` fields. -/
theorem sentiment_field_claim_counterexample :
    (is_abusive (fun _ _ => (0 : ℚ)) [] [] [] "hello" true).classification =
      "Clean" ∧
    (is_abusive (fun _ _ => (0 : ℚ)) [] [] [] "hello" true).sentiment =
      SentimentValue.report ⟨"Neutral", 0, 0,
        [⟨"hello", "hello", false, false, [], []⟩]⟩ ∧
    (is_abusive (fun _ _ => (0 : ℚ)) [] [] [] "hello" true).sentiment ≠
      SentimentValue.str "Positive" ∧
    (is_abusive (fun _ _ => (0 : ℚ)) [] [] [] "hello" true).sentiment ≠
      SentimentValue.str "Negative" ∧
    (is_abusive (fun _ _ => (0 : ℚ)) [] [] [] "hello" true).sentiment ≠
      SentimentValue.str "Neutral" ∧
    (is_abusive (fun _ _ => (0 : ℚ)) [] [] [] "hello" true).sentiment ≠
      SentimentValue.str "" := by
  have hpre : preprocess [] [] [] "hello" = ["hello"] := by
    simp [preprocess, pyLower, pyStrip, findTokens, isTokenChar, isEmojiChar]
  have k : is_abusive (fun _ _ => (0 : ℚ)) [] [] [] "hello" true =
      classifyTokens (fun _ _ => (0 : ℚ)) [] [] ["hello"] true := by
    unfold is_abusive
    rw [hpre]
  rw [k]
  exact ⟨by decide, by decide, by decide, by decide, by decide, by decide⟩

/-- C6: a token equal to a safe-word entry is skipped by the abusive loop
(no trie or pattern check applies to it), and any text whose token sequence
is exactly `["gandhiji"]` is never classified "Abusive". -/
theorem safe_word_guard :
    (∀ (all rest : List String) (t : String), safe_words.contains t = true →
      abusiveLoop all (t :: rest) = abusiveLoop all rest) ∧
    ∀ (ratio : String → String → ℚ) (stop pos neg : List String)
      (text : String) (debug : Bool),
      preprocess stop pos neg text = ["gandhiji"] →
        (is_abusive ratio stop pos neg text debug).classification ≠
          "Abusive" := by
  constructor
  · intro all rest t hsafe
    rw [abusiveLoop_cons_eq, hsafe]
    simp
  · intro ratio stop pos neg text debug hpre
    unfold is_abusive classifyTokens
    rw [hpre]
    have hloop : abusiveLoop ["gandhiji"] ["gandhiji"] = false := by decide
    rw [hloop]
    have hemp : (["gandhiji"] : List String).isEmpty = false := rfl
    rw [hemp]
    simp only [Bool.false_eq_true, if_false]
    decide

theorem safe_word_guard_witness :
    safe_words.contains "gandhiji" = true ∧
    abusiveLoop ["gandhiji"] ["gandhiji"] = abusiveLoop ["gandhiji"] [] ∧
    preprocess [] [] [] "gandhiji" = ["gandhiji"] ∧
    (is_abusive (fun _ _ => (0 : ℚ)) [] [] [] "gandhiji" false).classification ≠
      "Abusive" := by
  have hpre : preprocess [] [] [] "gandhiji" = ["gandhiji"] := by
    simp [preprocess, pyLower, pyStrip, findTokens, isTokenChar, isEmojiChar]
  exact ⟨by decide, safe_word_guard.1 ["gandhiji"] [] "gandhiji" (by decide),
    hpre, safe_word_guard.2 (fun _ _ => (0 : ℚ)) [] [] [] "gandhiji" false hpre⟩

/-- C7: whenever tokenization and stopword filtering leave no token, the
classifier returns exactly the record with classification "Please give
meaningful feedback", empty sentiment, and no debug fields — the sentiment
scorer is never consulted. -/
theorem empty_tokens_meaningful (ratio : String → String → ℚ)
    (stop pos neg : List String) (text : String) (debug : Bool)
    (h : preprocess stop pos neg text = []) :
    is_abusive ratio stop pos neg text debug =
      ⟨"Please give meaningful feedback", SentimentValue.str "", none, none⟩ := by
  unfold is_abusive
  rw [h]
  rfl

theorem empty_tokens_meaningful_witness :
    preprocess [] [] [] "" = [] ∧
    is_abusive (fun _ _ => (0 : ℚ)) [] [] [] "" false =
      ⟨"Please give meaningful feedback", SentimentValue.str "", none, none⟩ ∧
    preprocess ["the", "is"] [] [] "  the is  " = [] ∧
    is_abusive (fun _ _ => (0 : ℚ)) ["the", "is"] [] [] "  the is  " true =
      ⟨"Please give meaningful feedback", SentimentValue.str "", none, none⟩ := by
  have h1 : preprocess [] [] [] "" = [] := by
    simp [preprocess, pyLower, pyStrip, findTokens]
  have h2 : preprocess ["the", "is"] [] [] "  the is  " = [] := by
    simp [preprocess, pyLower, pyStrip, findTokens, isTokenChar, isEmojiChar]
  exact ⟨h1, empty_tokens_meaningful (fun _ _ => (0 : ℚ)) [] [] [] "" false h1,
    h2, empty_tokens_meaningful (fun _ _ => (0 : ℚ)) ["the", "is"] [] []
      "  the is  " true h2⟩

/-- C8: `normalize_repeated_chars` scans left to right keeping each character
only while its consecutive-repeat count is at most 2: the output never
contains the same character three times in a row, it is a subsequence of the
input (order preserved), and `"goooood" ↦ "good"`, `"sooo" ↦ "soo"`,
`"" ↦ ""`. -/
theorem normalize_repeated_chars_spec :
    (∀ w : String, hasTriple (normalize_repeated_chars w).data = false ∧
      List.Sublist (normalize_repeated_chars w).data w.data) ∧
    normalize_repeated_chars "goooood" = "good" ∧
    normalize_repeated_chars "sooo" = "soo" ∧
    normalize_repeated_chars "" = "" := by
  refine ⟨fun w => ⟨normalize_no_triple w, normalizeAux_sublist w.data none 0⟩,
    by decide, by decide, by decide⟩

/-- C9: the transcribed abusive-word list contains the merged entry
`"bhenchodbhosdike"` (Python string-literal concatenation across the missing
comma) and no entry `"bhosdike"`; consequently the trie reports no prefix for
the token `"bhosdike"`, no obfuscation pattern fully matches it, and a token
sequence consisting of exactly that token is classified "Clean". -/
theorem merged_bhosdike_entry :
    abusive_words.contains "bhenchodbhosdike" = true ∧
    abusive_words.contains "bhosdike" = false ∧
    trie.search_prefix "bhosdike" = false ∧
    patterns.all (fun p => !reMatch p "bhosdike".data) = true ∧
    ∀ (ratio : String → String → ℚ) (pos neg : List String) (debug : Bool),
      (classifyTokens ratio pos neg ["bhosdike"] debug).classification =
        "Clean" := by
  refine ⟨by decide, by decide, by decide, by decide, ?_⟩
  intro ratio pos neg debug
  unfold classifyTokens
  have hloop : abusiveLoop ["bhosdike"] ["bhosdike"] = false := by decide
  rw [hloop]
  have hemp : (["bhosdike"] : List String).isEmpty = false := rfl
  rw [hemp]
  simp only [Bool.false_eq_true, if_false]

/-- C10: `"gandhi"` is not a safe word while `"gand"` is an abusive entry, so
`search_prefix "gandhi"` is true, and every input whose token sequence
contains the token `"gandhi"` is classified "Abusive": the safe-word
exemption requires exact equality, not a shared prefix. -/
theorem gandhi_prefix_abusive :
    safe_words.contains "gandhi" = false ∧
    abusive_words.contains "gand" = true ∧
    trie.search_prefix "gandhi" = true ∧
    ∀ (ratio : String → String → ℚ) (stop pos neg : List String)
      (text : String) (debug : Bool),
      "gandhi" ∈ preprocess stop pos neg text →
        (is_abusive ratio stop pos neg text debug).classification =
          "Abusive" := by
  refine ⟨by decide, by decide, by decide, ?_⟩
  intro ratio stop pos neg text debug hmem
  unfold is_abusive classifyTokens
  have hne : ¬ (preprocess stop pos neg text).isEmpty = true := by
    rw [List.isEmpty_iff]
    exact List.ne_nil_of_mem hmem
  rw [if_neg hne]
  rw [if_pos (abusiveLoop_gandhi (preprocess stop pos neg text)
    (preprocess stop pos neg text) hmem)]

theorem gandhi_prefix_abusive_witness :
    "gandhi" ∈ preprocess [] [] [] "gandhi" ∧
    (is_abusive (fun _ _ => (0 : ℚ)) [] [] [] "gandhi" false).classification =
      "Abusive" := by
  have hpre : preprocess [] [] [] "gandhi" = ["gandhi"] := by
    simp [preprocess, pyLower, pyStrip, findTokens, isTokenChar, isEmojiChar]
  have hmem : "gandhi" ∈ preprocess [] [] [] "gandhi" := by
    rw [hpre]
    simp
  exact ⟨hmem, gandhi_prefix_abusive.2.2.2 (fun _ _ => (0 : ℚ)) [] [] []
    "gandhi" false hmem⟩

end FeedbackAnalyser
